import Mathlib

/-!
A verification development for the ECDF aggregation core of `pprldistr.py`
(module `bbob_pproc.pprldistr` of the COCO benchmarking post-processing).

The embedding models the data-transformation core over exact rationals:

* `plotECDF` — the ECDF builder (`plotECDF`, lines 229-251 of the source);
* `plotRLDistr` — the run-length aggregator (lines 332-369);
* `selectRow`, `clampFill`, `fvNormalize`, `plotFVDistr` — the final-value
  aggregator (lines 371-399);
* `extendSteps`, `extendMarkers` — the two boundary-extension branches of
  `beautifyECDF` (lines 137-177), acting on the `(xdata, ydata)` pairs of a
  qualifying curve element; the module-level constant `nbperdecade` is `1`
  in the source, so the log-spaced marker grid consists of integer powers
  of ten;
* `dimStep`, `runDims` — the per-dimension handling of the module-global
  x-axis ceiling `evalfmax` shared by `main` and `comp` (lines 427-437 and
  607-616).  Note that in Python a `global` declaration anywhere in a
  function body covers the whole body, so the `evalfmax = None` assignment
  of the non-storing branch also writes the module global; the state
  threaded through `runDims` reflects that.

Floating-point values are modelled as rationals.  The NaN marker that the
external `DataSet.detEvals` rows use for censored trials is modelled as
`none` in a `List (Option ℚ)` row.  All functions are pure, so the source's
"does not mutate the caller's sequence" is inherent in the embedding.
-/

namespace Pprldistr

/-- One benchmarked (function, dimension, algorithm) record, the slice of the
external `DataSet` collaborator that this module reads.  `detEvals t` is the
run-length row delivered for target `t` (entry `some v`: evaluation count of a
successful trial; `none`: the NaN marker of a censored trial).  `funvals` is
the budget-vs-gap matrix: rows `(evaluation count, per-trial gaps)` in
recorded (ascending evaluation count) order.  `nbRuns` is the trial count. -/
structure DataSet where
  funcId : ℕ
  dim : ℚ
  nbRuns : ℕ
  detEvals : ℚ → List (Option ℚ)
  funvals : List (ℚ × List ℚ)

/-- `plotECDF(x, n)` (lines 239-251): with `n` defaulting to `len(x)`, an
empty curve when `n == 0 or nx == 0`; otherwise the sorted data with the last
(maximal) value repeated, paired with `arange(0., nx) / n` followed by
`nx / n`.  The source's `sorted(x)` allocates a new list, so the input is not
mutated; here the function is pure. -/
def plotECDF (x : List ℚ) (n : Option ℕ) : List ℚ × List ℚ :=
  let n := n.getD x.length
  let nx := x.length
  if n = 0 ∨ nx = 0 then ([], [])
  else
    let sx := x.insertionSort (· ≤ ·)
    (sx ++ [sx.getLast?.getD 0],
     (List.range nx).map (fun i : ℕ => (i : ℚ) / (n : ℚ)) ++ [(nx : ℚ) / (n : ℚ)])

/-- `tmp <= max_fun_evals` for one surviving entry; `max_fun_evals` defaults
to `np.inf` in the source, modelled by `none` (every rational is below it). -/
def leCap (cap : Option ℚ) (v : ℚ) : Bool :=
  match cap with
  | none => true
  | some c => decide (v ≤ c)

/-- The surviving (non-censored) normalized run lengths of one record:
`tmp = ds.detEvals((target((ds.funcId, ds.dim)), ))[0] / ds.dim` followed by
`tmp = tmp[np.isnan(tmp) == False]` (lines 359-360).  Division maps over the
row (NaN / dim is NaN), then the NaN markers are dropped. -/
def survivingValues (ds : DataSet) (target : ℕ × ℚ → ℚ) : List ℚ :=
  ((ds.detEvals (target (ds.funcId, ds.dim))).map
    (fun e => e.map (fun v => v / ds.dim))).filterMap id

/-- The loop state of `plotRLDistr` (lines 353-364): accumulated sample `x`,
total count `nn`, and the `fsolved` and `funcs` sets of function ids. -/
structure RLAcc where
  x : List ℚ
  nn : ℕ
  fsolved : Finset ℕ
  funcs : Finset ℕ

/-- One iteration of the `for ds in dsList` loop of `plotRLDistr`
(lines 357-364): add the record's function id to `funcs`, keep the surviving
normalized run lengths, mark the function solved when the row has a surviving
entry within the cap (`len(tmp) > 0 and sum(tmp <= max_fun_evals)`), extend
the sample and add `nbRuns()` to the count. -/
def rlStep (target : ℕ × ℚ → ℚ) (cap : Option ℚ) (acc : RLAcc) (ds : DataSet) : RLAcc :=
  let tmp := survivingValues ds target
  { x := acc.x ++ tmp
    nn := acc.nn + ds.nbRuns
    fsolved := if tmp ≠ [] ∧ tmp.any (leCap cap) then insert ds.funcId acc.fsolved
               else acc.fsolved
    funcs := insert ds.funcId acc.funcs }

/-- `plotRLDistr(dsList, target, label, max_fun_evals)` (lines 332-369):
the ECDF of the aggregated sample with total count `nn`, and the label with
`': %d/%d' % (len(fsolved), len(funcs))` appended. -/
def plotRLDistr (dsList : List DataSet) (target : ℕ × ℚ → ℚ) (label : String)
    (cap : Option ℚ) : (List ℚ × List ℚ) × String :=
  let a := dsList.foldl (rlStep target cap) ⟨[], 0, ∅, ∅⟩
  (plotECDF a.x (some a.nn),
   label ++ ": " ++ toString a.fsolved.card ++ "/" ++ toString a.funcs.card)

/-- The `for j in i.funvals: if j[0] >= maxEvalsF * i.dim: break` loop of
`plotFVDistr` (lines 385-387) as a row selector: the first row whose
evaluation count reaches the threshold `b`; when no row does, the loop runs
off the end and `j` is left at the last row.  (On an empty matrix the Python
loop leaves `j` undefined; a dummy row stands in for that error state.) -/
def selectRow : List (ℚ × List ℚ) → ℚ → ℚ × List ℚ
  | [], _ => (0, [])
  | [r], _ => r
  | r :: r2 :: rs, b => if b ≤ r.1 then r else selectRow (r2 :: rs) b

/-- The replacement value written into the non-positive entries by
`tmp[tmp<=0.] = min(np.append(tmp[tmp>0],[target])>0)` (line 395).  The
comparison `> 0` applies to the array produced by `np.append`, so the `min`
ranges over Booleans: the result is `True` (`1.0` once stored into the float
array) when every element of `append(tmp[tmp>0], [target])` is positive, and
`False` (`0.0`) otherwise. -/
def clampFill (tmp : List ℚ) (target : ℚ) : ℚ :=
  if ((tmp.filter fun v => decide (0 < v)) ++ [target]).all (fun v => decide (0 < v))
  then 1 else 0

/-- Lines 389-395 of `plotFVDistr` for one selected row: divide the gaps by
the target precision and overwrite the entries `<= 0` with `clampFill`. -/
def fvNormalize (row : List ℚ) (target : ℚ) : List ℚ :=
  let tmp := row.map (fun g => g / target)
  tmp.map (fun v => if v ≤ 0 then clampFill tmp target else v)

/-- `plotFVDistr(dsList, target, maxEvalsF)` (lines 371-399) with a constant
target precision (the `try: target[i.funcId] except TypeError:` duck typing
resolves to the same arithmetic on the looked-up value). -/
def plotFVDistr (dsList : List DataSet) (target : ℚ) (maxEvalsF : ℚ) :
    List ℚ × List ℚ :=
  let a := dsList.foldl
    (fun (acc : List ℚ × ℕ) ds =>
      (acc.1 ++ fvNormalize (selectRow ds.funvals (maxEvalsF * ds.dim)).2 target,
       acc.2 + ds.nbRuns))
    ([], 0)
  plotECDF a.1 (some a.2)

/-- Modelled from the spec, for comparison with `selectRow`: "select the last
row, in ascending evaluation-count order, whose evaluation count is ≤ budget";
if none qualifies, use the first row. -/
def selectRowSpec (rows : List (ℚ × List ℚ)) (b : ℚ) : ℚ × List ℚ :=
  match (rows.filter fun r => decide (r.1 ≤ b)).getLast? with
  | some r => r
  | none => rows.headD (0, [])

/-- Modelled from the spec, for comparison with `fvNormalize`: any gap ≤ 0 is
replaced by the smallest strictly-positive gap observed among the trial's
normalized gaps concatenated with the target itself (the spec's example
`min {3, 5, 1} = 1` for gaps `[-2, 0, 3, 5]` and target `1`). -/
def fvNormalizeSpec (row : List ℚ) (target : ℚ) : List ℚ :=
  let tmp := row.map (fun g => g / target)
  let m := (tmp.filter fun v => decide (0 < v)).foldr min target
  tmp.map (fun v => if v ≤ 0 then m else v)

/-- Fuel-driven floor of `log10` on naturals (`natLog10Aux n n` is total for
fuel `n`): `0` below `10`, else one more than the value at `n / 10`. -/
def natLog10Aux : ℕ → ℕ → ℕ
  | 0, _ => 0
  | fuel + 1, n => if n < 10 then 0 else natLog10Aux fuel (n / 10) + 1

/-- `⌊log10 n⌋` for `1 ≤ n` (and `0` at `0`). -/
def natLog10 (n : ℕ) : ℕ := natLog10Aux n n

/-- Fuel-driven ceiling of `log10` on naturals: `0` at `n ≤ 1`, else one more
than the value at `⌈n / 10⌉`. -/
def natClog10Aux : ℕ → ℕ → ℕ
  | 0, _ => 0
  | fuel + 1, n => if n ≤ 1 then 0 else natClog10Aux fuel ((n + 9) / 10) + 1

/-- `⌈log10 n⌉` for `1 ≤ n` (and `0` at `0`). -/
def natClog10 (n : ℕ) : ℕ := natClog10Aux n n

/-- `⌊log10 q⌋` for a positive rational (`np.floor(np.log10(q))` on exact
input): for `q ≥ 1` the floor log of `⌊q⌋`, for `0 < q < 1` minus the ceiling
log of `⌈1/q⌉`; `0` on nonpositive input (where numpy would produce NaN —
the theorems below only use positive inputs). -/
def flog10 (q : ℚ) : ℤ :=
  if 1 ≤ q then (natLog10 ⌊q⌋₊ : ℤ)
  else if 0 < q then -(natClog10 ⌈q⁻¹⌉₊ : ℤ)
  else 0

/-- `⌈log10 q⌉ = -⌊log10 q⁻¹⌋` (`np.ceil(np.log10(q))` on exact input). -/
def clog10 (q : ℚ) : ℤ := -flog10 q⁻¹

/-- The synthesized marker positions of lines 170-172 with the module's
`nbperdecade = 1`: `10. ** np.arange(ceil(log10(xlast)), floor(log10(xmax)) + 1)`. -/
def markerGrid (xlast xmax : ℚ) : List ℚ :=
  (List.range (flog10 xmax + 1 - clog10 xlast).toNat).map
    (fun i : ℕ => (10 : ℚ) ^ (clog10 xlast + (i : ℤ)))

/-- The discrete-marker branch of `beautifyECDF` (lines 158-175) acting on the
data of one qualifying curve element: when the curve is nonempty and its
maximum x is below `xmax`, append the log-spaced grid, each position carrying
the final y; otherwise leave the data unchanged. -/
def extendMarkers (xdata ydata : List ℚ) (xmax : ℚ) : List ℚ × List ℚ :=
  if xdata ≠ [] ∧ xdata.max?.getD 0 < xmax then
    let xs := markerGrid (xdata.getLast?.getD 0) xmax
    (xdata ++ xs, ydata ++ List.replicate xs.length (ydata.getLast?.getD 0))
  else (xdata, ydata)

/-- The continuous-style branch of `beautifyECDF` (lines 145-157) acting on
the data of one qualifying curve element: when the curve is nonempty and its
maximum x is below `xmax`, append the single point `(xmax, ydata[-1])`. -/
def extendSteps (xdata ydata : List ℚ) (xmax : ℚ) : List ℚ × List ℚ :=
  if xdata ≠ [] ∧ xdata.max?.getD 0 < xmax then
    (xdata ++ [xmax], ydata ++ [ydata.getLast?.getD 0])
  else (xdata, ydata)

/-- Python truthiness of the `evalfmax` module global in `if not evalfmax:`
(lines 434, 613): unset when `None` or `0.0`. -/
def isUnset : Option ℚ → Bool
  | none => true
  | some v => v == 0

/-- One dimension iteration of `main`/`comp` (lines 427-437, 607-616) as far
as the x-axis ceiling is concerned.  `st` is the module global `evalfmax` on
entry (the `global` declaration in the Python source covers the whole
function body, so both branches write the global), `runlenMax` the module
global `runlen_xlimits_max` (default `None`), `mef` the dimension's
`maxEvalsFactor`.  Returns the global after the iteration and the ceiling
used for this dimension's figure. -/
def dimStep (isStoring : Bool) (runlenMax : Option ℚ) (st : Option ℚ) (mef : ℚ) :
    Option ℚ × ℚ :=
  let ef := if isStoring then st else none
  let ef := if isUnset ef then some mef else ef
  let ef := match runlenMax with
    | some v => some v
    | none => ef
  (ef, ef.getD 0)

/-- One `runDims` fold step: thread the module global through `dimStep` and
record the ceiling used for the dimension. -/
def runDimsStep (isStoring : Bool) (runlenMax : Option ℚ)
    (acc : Option ℚ × List ℚ) (mef : ℚ) : Option ℚ × List ℚ :=
  let s := dimStep isStoring runlenMax acc.1 mef
  (s.1, acc.2 ++ [s.2])

/-- The dimension loop of one invocation of `main` (or `comp`): fold `dimStep`
over the dimensions' `maxEvalsFactor` values, returning the final module
global and the ceilings used per dimension, in order. -/
def runDims (isStoring : Bool) (runlenMax : Option ℚ) (st : Option ℚ)
    (mefs : List ℚ) : Option ℚ × List ℚ :=
  mefs.foldl (runDimsStep isStoring runlenMax) (st, [])

/-- The spec's concrete scenario, record A: function 1, dimension 5, 10 runs,
successful raw evaluation counts 10 and 20 and eight censored (NaN) runs. -/
def dsA : DataSet where
  funcId := 1
  dim := 5
  nbRuns := 10
  detEvals := fun _ => [some 10, some 20, none, none, none, none, none, none, none, none]
  funvals := []

/-- The spec's concrete scenario, record B: function 1, dimension 5, 10 runs,
no recorded entries (neither successes nor censored markers). -/
def dsB : DataSet where
  funcId := 1
  dim := 5
  nbRuns := 10
  detEvals := fun _ => []
  funvals := []

/-! ### Helper lemmas -/

theorem le_getLast_of_sorted {l : List ℚ} (hs : l.Sorted (· ≤ ·)) {a : ℚ}
    (ha : a ∈ l) (hne : l ≠ []) : a ≤ l.getLast hne := by
  induction l with
  | nil => exact absurd rfl hne
  | cons b t ih =>
    rcases List.sorted_cons.mp hs with ⟨hb, ht⟩
    rcases List.mem_cons.mp ha with h | h
    · subst h
      cases t with
      | nil => simp [List.getLast]
      | cons c u =>
        rw [List.getLast_cons (by simp : (c :: u : List ℚ) ≠ [])]
        exact hb _ (List.getLast_mem _)
    · have hne2 : t ≠ [] := List.ne_nil_of_mem h
      rw [List.getLast_cons hne2]
      exact ih ht h hne2

theorem max?_getD_spec {l : List ℚ} (hne : l ≠ []) :
    l.max?.getD 0 ∈ l ∧ ∀ b ∈ l, b ≤ l.max?.getD 0 := by
  haveI : Std.Antisymm (fun a b : ℚ => a ≤ b) := ⟨fun h h2 => le_antisymm h h2⟩
  obtain ⟨m, hm⟩ : ∃ m, l.max? = some m := by
    cases h : l.max? with
    | none => exact absurd (List.max?_eq_none_iff.mp h) hne
    | some m => exact ⟨m, rfl⟩
  have h2 := (List.max?_eq_some_iff (fun a : ℚ => le_refl a) max_choice
    (fun a b c => max_le_iff)).mp hm
  rw [hm]
  exact ⟨h2.1, h2.2⟩

/-! ### Theorems about the claims -/

/-- C1: ECDF Builder contract.  With total count `n` defaulting to `len(x)`,
`plotECDF` gives an empty curve when `n == 0` or `nx == 0`, and otherwise
pairs the sorted sample with a duplicate of its maximum appended against the
y-coordinates `i / n` for `i = 0 .. nx - 1` followed by `nx / n`; the
embedding is pure, so the caller's sequence is not mutated. -/
theorem plotECDF_contract (xs : List ℚ) (n : ℕ) :
    plotECDF xs none = plotECDF xs (some xs.length) ∧
    ((n = 0 ∨ xs.length = 0) → plotECDF xs (some n) = ([], [])) ∧
    (n ≠ 0 → xs ≠ [] →
      ∃ sx m, sx.Sorted (· ≤ ·) ∧ sx.Perm xs ∧ m ∈ xs ∧ (∀ a ∈ xs, a ≤ m) ∧
        plotECDF xs (some n) =
          (sx ++ [m],
           (List.range xs.length).map (fun i : ℕ => (i : ℚ) / (n : ℚ)) ++
             [(xs.length : ℚ) / (n : ℚ)])) := by
  refine ⟨rfl, ?_, ?_⟩
  · intro h
    simp only [plotECDF, Option.getD_some]
    rw [if_pos h]
  · intro hn hxs
    have hperm : (xs.insertionSort (· ≤ ·)).Perm xs := List.perm_insertionSort _ _
    have hsorted : (xs.insertionSort (· ≤ ·)).Sorted (· ≤ ·) :=
      List.sorted_insertionSort _ _
    have hsne : xs.insertionSort (· ≤ ·) ≠ [] := by
      intro h
      apply hxs
      have hl := List.length_insertionSort (fun a b : ℚ => a ≤ b) xs
      rw [h] at hl
      exact List.eq_nil_of_length_eq_zero hl.symm
    refine ⟨xs.insertionSort (· ≤ ·), (xs.insertionSort (· ≤ ·)).getLast hsne,
      hsorted, hperm, ?_, ?_, ?_⟩
    · exact hperm.mem_iff.mp (List.getLast_mem hsne)
    · intro a ha
      exact le_getLast_of_sorted hsorted (hperm.mem_iff.mpr ha) hsne
    · simp only [plotECDF, Option.getD_some]
      rw [if_neg (by push_neg; exact ⟨hn, by simpa using hxs⟩)]
      rw [List.getLast?_eq_getLast _ hsne]
      rfl

/-- Witness for C1 at `xs = [3, 1]`, `n = 2`. -/
theorem plotECDF_contract_witness :
    ∃ sx m, sx.Sorted (· ≤ ·) ∧ sx.Perm [(3 : ℚ), 1] ∧ m ∈ [(3 : ℚ), 1] ∧
      (∀ a ∈ [(3 : ℚ), 1], a ≤ m) ∧
      plotECDF [3, 1] (some 2) =
        (sx ++ [m],
         (List.range (List.length [(3 : ℚ), 1])).map
             (fun i : ℕ => (i : ℚ) / ((2 : ℕ) : ℚ)) ++
           [((List.length [(3 : ℚ), 1] : ℕ) : ℚ) / ((2 : ℕ) : ℚ)]) :=
  (plotECDF_contract [3, 1] 2).2.2 (by norm_num) (by simp)

/-- C5: ECDF monotonicity and bounds.  For `n ≥ len(x)` and `n > 0` the
curve's x sequence is non-decreasing and its y sequence is non-decreasing
and contained in `[0, 1]`. -/
theorem plotECDF_monotone_bounded (xs : List ℚ) (n : ℕ) (hlen : xs.length ≤ n)
    (hn : 0 < n) :
    (plotECDF xs (some n)).1.Sorted (· ≤ ·) ∧
    (plotECDF xs (some n)).2.Sorted (· ≤ ·) ∧
    ∀ y ∈ (plotECDF xs (some n)).2, 0 ≤ y ∧ y ≤ 1 := by
  by_cases hxs : xs = []
  · subst hxs; simp [plotECDF]
  · have hnn : ¬(n = 0 ∨ xs.length = 0) := by
      push_neg
      exact ⟨hn.ne', by simpa using hxs⟩
    have hq : (0 : ℚ) < (n : ℚ) := by exact_mod_cast hn
    have hperm : (xs.insertionSort (· ≤ ·)).Perm xs := List.perm_insertionSort _ _
    have hsorted : (xs.insertionSort (· ≤ ·)).Sorted (· ≤ ·) :=
      List.sorted_insertionSort _ _
    have hsne : xs.insertionSort (· ≤ ·) ≠ [] := by
      intro h
      apply hxs
      have hl := List.length_insertionSort (fun a b : ℚ => a ≤ b) xs
      rw [h] at hl
      exact List.eq_nil_of_length_eq_zero hl.symm
    simp only [plotECDF, Option.getD_some, if_neg hnn]
    rw [List.getLast?_eq_getLast _ hsne, Option.getD_some]
    refine ⟨?_, ?_, ?_⟩
    · rw [List.Sorted, List.pairwise_append]
      refine ⟨hsorted, List.pairwise_singleton _ _, ?_⟩
      intro a ha b hb
      rw [List.mem_singleton.mp hb]
      exact le_getLast_of_sorted hsorted ha hsne
    · rw [List.Sorted, List.pairwise_append]
      refine ⟨?_, List.pairwise_singleton _ _, ?_⟩
      · refine List.Pairwise.map _ ?_ (List.pairwise_lt_range xs.length)
        intro a b hab
        gcongr
      · intro a ha b hb
        rw [List.mem_singleton.mp hb]
        rcases List.mem_map.mp ha with ⟨i, hi, rfl⟩
        have h2 : i ≤ xs.length := (List.mem_range.mp hi).le
        gcongr
    · intro y hy
      rcases List.mem_append.mp hy with h | h
      · rcases List.mem_map.mp h with ⟨i, hi, rfl⟩
        constructor
        · positivity
        · rw [div_le_one hq]
          exact_mod_cast ((List.mem_range.mp hi).le.trans hlen)
      · rw [List.mem_singleton.mp h]
        constructor
        · positivity
        · rw [div_le_one hq]
          exact_mod_cast hlen

/-- Witness for C5 at `xs = [3, 1]`, `n = 3`. -/
theorem plotECDF_monotone_bounded_witness :
    (plotECDF [3, 1] (some 3)).1.Sorted (· ≤ ·) ∧
    (plotECDF [3, 1] (some 3)).2.Sorted (· ≤ ·) ∧
    ∀ y ∈ (plotECDF [3, 1] (some 3)).2, 0 ≤ y ∧ y ≤ 1 :=
  plotECDF_monotone_bounded [3, 1] 3 (by simp) (by norm_num)

/-- C8: Continuous-style boundary extension and no-op.  On a nonempty step
curve, when the maximum x already reaches `xmax` nothing changes; when it is
below `xmax` exactly the single point `(xmax, final y)` is appended, the
pre-existing points staying in place. -/
theorem extendSteps_spec (xdata ydata : List ℚ) (xmax : ℚ) (h : xdata ≠ []) :
    (xmax ≤ xdata.max?.getD 0 → extendSteps xdata ydata xmax = (xdata, ydata)) ∧
    (xdata.max?.getD 0 < xmax →
      extendSteps xdata ydata xmax =
        (xdata ++ [xmax], ydata ++ [ydata.getLast?.getD 0])) := by
  constructor
  · intro hle
    rw [extendSteps, if_neg]
    push_neg
    intro _
    exact hle
  · intro hlt
    rw [extendSteps, if_pos ⟨h, hlt⟩]

/-- Witness for C8: a single-point curve at x = 5 is left unchanged by
extension to xmax = 3, and extended by one point for xmax = 9. -/
theorem extendSteps_spec_witness :
    (extendSteps [5] [1] 3 = ([5], [1])) ∧
    (extendSteps [5] [1] 9 = ([5] ++ [9], [1] ++ [([(1 : ℚ)]).getLast?.getD 0])) :=
  ⟨(extendSteps_spec [5] [1] 3 (by simp)).1 (by norm_num [List.max?]),
   (extendSteps_spec [5] [1] 9 (by simp)).2 (by norm_num [List.max?])⟩

/-- In the storing mode, a nonzero frozen ceiling is reused unchanged by every
further dimension. -/
theorem runDims_frozen (rest : List ℚ) (v : ℚ) (hv : v ≠ 0) (outs : List ℚ) :
    rest.foldl (runDimsStep true none) (some v, outs) =
      (some v, outs ++ List.replicate rest.length v) := by
  induction rest generalizing outs with
  | nil => simp
  | cons m t ih =>
    rw [List.foldl_cons]
    have hstep : runDimsStep true none (some v, outs) m = (some v, outs ++ [v]) := by
      simp [runDimsStep, dimStep, isUnset, hv]
    rw [hstep, ih]
    simp [List.replicate_succ]

/-- In the non-storing mode the ceiling state is reset before every dimension,
so each dimension's ceiling is its own `maxEvalsFactor`, whatever the incoming
module state was. -/
theorem runDims_recompute (mefs : List ℚ) : ∀ (st : Option ℚ) (outs : List ℚ),
    (mefs.foldl (runDimsStep false none) (st, outs)).2 = outs ++ mefs := by
  induction mefs with
  | nil => intro st outs; simp
  | cons m t ih =>
    intro st outs
    rw [List.foldl_cons]
    have hstep : runDimsStep false none (st, outs) m = (some m, outs ++ [m]) := by
      simp [runDimsStep, dimStep, isUnset]
    rw [hstep, ih]
    simp

/-- C9: Frozen x-axis ceiling.  Starting from an unset module global with
`isStoringXMax` true, the ceiling computed from the first dimension is frozen
and reused for every dimension of the invocation; with `isStoringXMax` false
the global is reset before each dimension and every dimension gets its own
recomputed ceiling, regardless of the module state the call started from. -/
theorem evalfmax_freezing (mefs : List ℚ) (st : Option ℚ) (hne : mefs ≠ [])
    (hpos : 0 < mefs.head?.getD 0) :
    (runDims true none none mefs).2 =
      List.replicate mefs.length (mefs.head?.getD 0) ∧
    (runDims false none st mefs).2 = mefs := by
  constructor
  · cases mefs with
    | nil => exact absurd rfl hne
    | cons m t =>
      rw [runDims, List.foldl_cons]
      have hstep : runDimsStep true none (none, []) m = (some m, [m]) := by
        simp [runDimsStep, dimStep, isUnset]
      have hm : m ≠ 0 := by
        have : (0 : ℚ) < m := by simpa using hpos
        exact this.ne'
      rw [hstep, runDims_frozen t m hm]
      simp [List.replicate_succ]
  · rw [runDims, runDims_recompute]
    simp

/-- Witness for C9 at factors `[3, 5]` with a stale stored state `some 7`. -/
theorem evalfmax_freezing_witness :
    (runDims true none none [3, 5]).2 =
      List.replicate (List.length [(3 : ℚ), 5]) (([(3 : ℚ), 5]).head?.getD 0) ∧
    (runDims false none (some 7) [3, 5]).2 = [3, 5] :=
  evalfmax_freezing [3, 5] (some 7) (by simp) (by norm_num)

/-- C2 (code bug): the clamp of line 395 does not install the smallest
strictly-positive gap.  `min(np.append(tmp[tmp>0],[target])>0)` compares the
appended array against `0` first, so the `min` ranges over Booleans and the
replacement is the constant `1.0` whenever the target is positive.  On trial
gaps `[-2, 6]` with target `2` the code yields `[1, 3]` where the smallest
positive value (the claim's description, `min {3, 2} = 2`) yields `[2, 3]`;
the spec's own example (gaps `[-2, 0, 3, 5]`, target `1`) only agrees because
there the intended minimum happens to be `1`.  The last conjunct evaluates the
full `plotFVDistr` at the failing record. -/
theorem fvNormalize_clamp_bug :
    fvNormalize [-2, 6] 2 = [1, 3] ∧
    fvNormalizeSpec [-2, 6] 2 = [2, 3] ∧
    fvNormalize [-2, 6] 2 ≠ fvNormalizeSpec [-2, 6] 2 ∧
    fvNormalize [-2, 0, 3, 5] 1 = [1, 1, 3, 5] ∧
    plotFVDistr [⟨1, 1, 3, fun _ => [], [(5, [-2, 6])]⟩] 2 100 =
      ([1, 3, 3], [0, 1/3, 2/3]) := by
  norm_num [fvNormalize, fvNormalizeSpec, clampFill, plotFVDistr, selectRow,
    plotECDF, List.insertionSort, List.orderedInsert, List.filter, List.range,
    List.range.loop]

/-- C3 counterexample: on the function-value rows `[(10, [7]), (25, [11])]`
with threshold `budget × dim = 20`, the loop of lines 385-387 selects the row
at evaluation count 25 (the first row at or above the threshold), not the row
at 10 that the claim's "last row whose evaluation count does not exceed the
threshold" describes; accordingly `plotFVDistr` aggregates the gap 11, not 7. -/
theorem selectRow_not_last_below :
    selectRow [(10, [7]), (25, [11])] 20 = (25, [11]) ∧
    selectRowSpec [(10, [7]), (25, [11])] 20 = (10, [7]) ∧
    ((25 : ℚ), [(11 : ℚ)]) ≠ ((10 : ℚ), [(7 : ℚ)]) ∧
    (plotFVDistr [⟨1, 1, 5, fun _ => [], [(10, [7]), (25, [11])]⟩] 1 20).1 =
      [11, 11] ∧
    ([(11 : ℚ), 11] : List ℚ) ≠ ([7, 7] : List ℚ) := by
  norm_num [selectRow, selectRowSpec, plotFVDistr, fvNormalize, clampFill,
    plotECDF, List.insertionSort, List.orderedInsert, List.filter,
    List.getLast?, List.getLast, List.range, List.range.loop]

/-- `selectRow` picks the first row at or above the threshold, and the last
row when no row reaches it. -/
theorem selectRow_eq_find? (rows : List (ℚ × List ℚ)) (b : ℚ) (h : rows ≠ []) :
    selectRow rows b =
      (rows.find? fun r => decide (b ≤ r.1)).getD (rows.getLast h) := by
  induction rows with
  | nil => exact absurd rfl h
  | cons r t ih =>
    cases t with
    | nil =>
      by_cases hb : b ≤ r.1
      · simp [selectRow, List.find?, hb]
      · simp [selectRow, List.find?, hb, List.getLast]
    | cons r2 u =>
      by_cases hb : b ≤ r.1
      · simp [selectRow, List.find?, hb]
      · have hfind : (List.find? (fun r => decide (b ≤ r.1)) (r :: r2 :: u)) =
            List.find? (fun r => decide (b ≤ r.1)) (r2 :: u) := by
          rw [List.find?_cons]
          simp [hb]
        have hsel : selectRow (r :: r2 :: u) b = selectRow (r2 :: u) b := by
          simp [selectRow, hb]
        rw [hsel, hfind, List.getLast_cons (by simp)]
        exact ih (by simp)

/-- C3 amended: for every record and budget, `plotFVDistr` selects the first
recorded function-value row, in stored (ascending evaluation count) order,
whose evaluation count is at least `budget × dim`, and divides that row's
per-trial gaps by the target precision; when no row reaches the threshold,
the last row is used. -/
theorem plotFVDistr_row_selection (ds : DataSet) (target maxEvalsF : ℚ)
    (h : ds.funvals ≠ []) :
    selectRow ds.funvals (maxEvalsF * ds.dim) =
      (ds.funvals.find? fun r => decide (maxEvalsF * ds.dim ≤ r.1)).getD
        (ds.funvals.getLast h) ∧
    plotFVDistr [ds] target maxEvalsF =
      plotECDF
        (fvNormalize
          ((ds.funvals.find? fun r => decide (maxEvalsF * ds.dim ≤ r.1)).getD
              (ds.funvals.getLast h)).2 target)
        (some ds.nbRuns) := by
  refine ⟨selectRow_eq_find? _ _ h, ?_⟩
  rw [plotFVDistr]
  simp only [List.foldl_cons, List.foldl_nil, List.nil_append, Nat.zero_add]
  rw [selectRow_eq_find? _ _ h]

/-- Witness for C3's amended theorem at the rows `[(10, [7]), (25, [11])]`
and threshold 20. -/
theorem plotFVDistr_row_selection_witness :
    selectRow [((10 : ℚ), [(7 : ℚ)]), (25, [11])] (20 * 1) = (25, [11]) := by
  have h := (plotFVDistr_row_selection ⟨1, 1, 5, fun _ => [], [(10, [7]), (25, [11])]⟩
    1 20 (by simp)).1
  rw [h]
  norm_num [List.find?]

/-- Closed form of the `plotRLDistr` loop: the sample is the concatenation of
the records' surviving values, the count is the sum of the `nbRuns`, and the
two id sets collect the (solved) records' function ids. -/
theorem rlFoldl_closed (target : ℕ × ℚ → ℚ) (cap : Option ℚ)
    (dsList : List DataSet) (acc : RLAcc) :
    dsList.foldl (rlStep target cap) acc =
      { x := acc.x ++ dsList.flatMap (fun ds => survivingValues ds target)
        nn := acc.nn + (dsList.map (fun ds => ds.nbRuns)).sum
        fsolved := acc.fsolved ∪
          ((dsList.filter fun ds =>
              (survivingValues ds target).any (leCap cap)).map
            (fun ds => ds.funcId)).toFinset
        funcs := acc.funcs ∪ (dsList.map (fun ds => ds.funcId)).toFinset } := by
  induction dsList generalizing acc with
  | nil =>
    simp only [List.foldl_nil, List.flatMap_nil, List.append_nil, List.map_nil,
      List.sum_nil, Nat.add_zero, List.filter_nil, List.toFinset_nil,
      Finset.union_empty]
  | cons ds t ih =>
    rw [List.foldl_cons, ih]
    by_cases hany : (survivingValues ds target).any (leCap cap) = true
    · have hne : survivingValues ds target ≠ [] := by
        rcases List.any_eq_true.mp hany with ⟨a, ha, _⟩
        exact List.ne_nil_of_mem ha
      have hfilter :
          List.filter (fun ds => (survivingValues ds target).any (leCap cap))
              (ds :: t) =
            ds :: List.filter
              (fun ds => (survivingValues ds target).any (leCap cap)) t := by
        rw [List.filter_cons_of_pos]
        exact hany
      simp only [rlStep, List.flatMap_cons, List.map_cons, List.sum_cons,
        hfilter, List.toFinset_cons]
      rw [if_pos ⟨hne, hany⟩]
      congr 1
      · rw [List.append_assoc]
      · rw [Nat.add_assoc]
      · rw [Finset.insert_union, Finset.union_insert]
      · rw [Finset.insert_union, Finset.union_insert]
    · have hfilter :
          List.filter (fun ds => (survivingValues ds target).any (leCap cap))
              (ds :: t) =
            List.filter
              (fun ds => (survivingValues ds target).any (leCap cap)) t := by
        rw [List.filter_cons_of_neg]
        exact hany
      simp only [rlStep, List.flatMap_cons, List.map_cons, List.sum_cons,
        hfilter, List.toFinset_cons]
      rw [if_neg (fun hc => hany hc.2)]
      congr 1
      · rw [List.append_assoc]
      · rw [Nat.add_assoc]
      · rw [Finset.insert_union, Finset.union_insert]

/-- C6: Run-length aggregation and solved count.  `plotRLDistr` aggregates the
records' surviving normalized run lengths (run-length row at the provider's
target, divided by the record's dimension, censored markers dropped), counts
the summed `nbRuns()`, and appends `': s/t'` to the label where `s` is the
number of distinct function ids having a surviving value within the cap and
`t` the number of distinct function ids encountered. -/
theorem plotRLDistr_aggregation (dsList : List DataSet) (target : ℕ × ℚ → ℚ)
    (label : String) (cap : Option ℚ) :
    plotRLDistr dsList target label cap =
      (plotECDF (dsList.flatMap fun ds => survivingValues ds target)
         (some (dsList.map fun ds => ds.nbRuns).sum),
       label ++ ": " ++
         toString ((dsList.filter fun ds =>
             (survivingValues ds target).any (leCap cap)).map
           (fun ds => ds.funcId)).toFinset.card ++
         "/" ++ toString (dsList.map fun ds => ds.funcId).toFinset.card) ∧
    (∀ ds ∈ dsList, survivingValues ds target =
      ((ds.detEvals (target (ds.funcId, ds.dim))).filterMap id).map
        (fun v => v / ds.dim)) ∧
    (∀ fid : ℕ,
      fid ∈ ((dsList.filter fun ds =>
          (survivingValues ds target).any (leCap cap)).map
        (fun ds => ds.funcId)).toFinset ↔
      ∃ ds ∈ dsList, ds.funcId = fid ∧
        ∃ v ∈ survivingValues ds target, leCap cap v = true) := by
  refine ⟨?_, ?_, ?_⟩
  · rw [plotRLDistr, rlFoldl_closed]
    simp
  · intro ds _
    simp [survivingValues, List.filterMap_map, List.map_filterMap,
      Function.comp_def]
  · intro fid
    simp only [List.mem_toFinset, List.mem_map, List.mem_filter,
      List.any_eq_true]
    constructor
    · rintro ⟨ds, ⟨hds, v, hv, hcap⟩, hid⟩
      exact ⟨ds, hds, hid, v, hv, hcap⟩
    · rintro ⟨ds, hds, hid, v, hv, hcap⟩
      exact ⟨ds, ⟨hds, v, hv, hcap⟩, hid⟩

/-- Witness for C6 at a single record with one surviving value. -/
theorem plotRLDistr_aggregation_witness :
    plotRLDistr [⟨2, 1, 4, fun _ => [some 3], []⟩] (fun _ => 1) "L" none =
      (plotECDF (([⟨2, 1, 4, fun _ => [some 3], []⟩] : List DataSet).flatMap
          fun ds => survivingValues ds (fun _ => 1))
         (some (([⟨2, 1, 4, fun _ => [some 3], []⟩] : List DataSet).map
           fun ds => ds.nbRuns).sum),
       "L" ++ ": " ++
         toString ((([⟨2, 1, 4, fun _ => [some 3], []⟩] : List DataSet).filter
             fun ds => (survivingValues ds (fun _ => 1)).any (leCap none)).map
           (fun ds => ds.funcId)).toFinset.card ++
         "/" ++ toString ((([⟨2, 1, 4, fun _ => [some 3], []⟩] : List DataSet).map
           fun ds => ds.funcId)).toFinset.card) :=
  (plotRLDistr_aggregation [⟨2, 1, 4, fun _ => [some 3], []⟩] (fun _ => 1)
    "L" none).1

/-- C10: the cap `max_fun_evals` influences only the solved-functions count:
every surviving normalized run length — also one strictly above the cap — is
in the aggregated sample, and neither the sample nor the total count depends
on the cap. -/
theorem plotRLDistr_cap_only_label (dsList : List DataSet) (target : ℕ × ℚ → ℚ)
    (label : String) (cap : Option ℚ) {ds : DataSet} (hds : ds ∈ dsList) {v : ℚ}
    (hv : v ∈ survivingValues ds target) :
    v ∈ (dsList.foldl (rlStep target cap) ⟨[], 0, ∅, ∅⟩).x ∧
    (dsList.foldl (rlStep target cap) ⟨[], 0, ∅, ∅⟩).x =
      (dsList.foldl (rlStep target none) ⟨[], 0, ∅, ∅⟩).x ∧
    (dsList.foldl (rlStep target cap) ⟨[], 0, ∅, ∅⟩).nn =
      (dsList.foldl (rlStep target none) ⟨[], 0, ∅, ∅⟩).nn ∧
    (plotRLDistr dsList target label cap).1 =
      (plotRLDistr dsList target label none).1 := by
  have h1 := rlFoldl_closed target cap dsList ⟨[], 0, ∅, ∅⟩
  have h2 := rlFoldl_closed target none dsList ⟨[], 0, ∅, ∅⟩
  refine ⟨?_, ?_, ?_, ?_⟩
  · rw [h1]
    simp only [List.nil_append]
    exact List.mem_flatMap.mpr ⟨ds, hds, hv⟩
  · rw [h1, h2]
  · rw [h1, h2]
  · rw [plotRLDistr, plotRLDistr, h1, h2]

/-- Witness for C10: the value 9, strictly above the cap 5, is in the sample. -/
theorem plotRLDistr_cap_only_label_witness :
    (9 : ℚ) ∈ (([⟨1, 1, 2, fun _ => [some 9], []⟩] : List DataSet).foldl
        (rlStep (fun _ => 1) (some 5)) ⟨[], 0, ∅, ∅⟩).x :=
  (@plotRLDistr_cap_only_label [⟨1, 1, 2, fun _ => [some 9], []⟩] (fun _ => 1)
    "L" (some 5) ⟨1, 1, 2, fun _ => [some 9], []⟩ (by simp) 9
    (by simp [survivingValues])).1

/-- C4 counterexample: in the spec's concrete scenario the produced curve is
`(2, 0), (4, 1/20), (4, 2/20)` — the y-coordinates are `i / n` starting at
`0/20` — so the claimed point sequence `(2, 1/20), (4, 2/20), (4, 2/20)` is
not the output. -/
theorem scenario_y_shift :
    (plotRLDistr [dsA, dsB] (fun _ => 1) "t" none).1 ≠
      ([2, 4, 4], [1/20, 2/20, 2/20]) := by
  have hfold : ([dsA, dsB] : List DataSet).foldl (rlStep (fun _ => 1) none)
      ⟨[], 0, ∅, ∅⟩ = ⟨[2, 4], 20, insert 1 ∅, insert 1 (insert 1 ∅)⟩ := by
    norm_num [rlStep, survivingValues, dsA, dsB, leCap, List.filterMap_cons]
    simp
  rw [plotRLDistr, hfold]
  norm_num [plotECDF, List.insertionSort, List.orderedInsert, List.range,
    List.range.loop]

/-- C4 amended: the scenario of the claim (two records of one function id,
dimension 5, 10 runs each, successful raw evals 10 and 20, eight censored
runs in record A and none recorded in record B) yields aggregate sample
`[2, 4]`, `n = 20`, the curve `(2, 0), (4, 1/20), (4, 2/20)` with the
duplicated maximum, and the solved-functions suffix `": 1/1"`. -/
theorem scenario_curve :
    plotRLDistr [dsA, dsB] (fun _ => 1) "t" none =
      (([2, 4, 4], [0, 1/20, 2/20]), "t: 1/1") := by
  have hfold : ([dsA, dsB] : List DataSet).foldl (rlStep (fun _ => 1) none)
      ⟨[], 0, ∅, ∅⟩ = ⟨[2, 4], 20, insert 1 ∅, insert 1 (insert 1 ∅)⟩ := by
    norm_num [rlStep, survivingValues, dsA, dsB, leCap, List.filterMap_cons]
    simp
  rw [plotRLDistr, hfold]
  congr 1
  norm_num [plotECDF, List.insertionSort, List.orderedInsert, List.range,
    List.range.loop]

theorem natLog10Aux_le (fuel : ℕ) : ∀ n : ℕ, 0 < n → n ≤ fuel →
    10 ^ natLog10Aux fuel n ≤ n := by
  induction fuel with
  | zero => intro n hn hle; omega
  | succ f ih =>
    intro n hn hle
    rw [natLog10Aux]
    by_cases h10 : n < 10
    · rw [if_pos h10]
      simpa using hn
    · rw [if_neg h10]
      have hd : 0 < n / 10 := Nat.div_pos (by omega) (by norm_num)
      have hdf : n / 10 ≤ f := by
        have := Nat.div_lt_self hn (by norm_num : 1 < 10)
        omega
      have hih := ih (n / 10) hd hdf
      calc 10 ^ (natLog10Aux f (n / 10) + 1)
          = 10 ^ natLog10Aux f (n / 10) * 10 := by rw [pow_succ]
        _ ≤ (n / 10) * 10 := Nat.mul_le_mul_right 10 hih
        _ ≤ n := Nat.div_mul_le_self n 10

theorem natLog10_le {n : ℕ} (hn : 0 < n) : 10 ^ natLog10 n ≤ n :=
  natLog10Aux_le n n hn le_rfl

theorem natClog10Aux_ge (fuel : ℕ) : ∀ n : ℕ, n ≤ fuel →
    n ≤ 10 ^ natClog10Aux fuel n := by
  induction fuel with
  | zero =>
    intro n hle
    simp only [natClog10Aux, pow_zero]
    omega
  | succ f ih =>
    intro n hle
    rw [natClog10Aux]
    by_cases h1 : n ≤ 1
    · rw [if_pos h1]
      simpa using h1
    · rw [if_neg h1]
      have hm : (n + 9) / 10 ≤ f := by
        have hlt : (n + 9) / 10 < n := by
          rw [Nat.div_lt_iff_lt_mul (by norm_num : 0 < 10)]
          omega
        omega
      have hih := ih ((n + 9) / 10) hm
      calc n ≤ ((n + 9) / 10) * 10 := by
            have hdm := Nat.div_add_mod (n + 9) 10
            have hmod : (n + 9) % 10 < 10 := Nat.mod_lt _ (by norm_num)
            omega
        _ ≤ 10 ^ natClog10Aux f ((n + 9) / 10) * 10 := Nat.mul_le_mul_right 10 hih
        _ = 10 ^ (natClog10Aux f ((n + 9) / 10) + 1) := (pow_succ 10 _).symm

theorem natClog10_ge (n : ℕ) : n ≤ 10 ^ natClog10 n :=
  natClog10Aux_ge n n le_rfl

/-- The grid's floor log is exact as a lower bound: `10 ^ ⌊log10 q⌋ ≤ q`. -/
theorem flog10_le {q : ℚ} (hq : 0 < q) : (10 : ℚ) ^ flog10 q ≤ q := by
  rw [flog10]
  by_cases h1 : 1 ≤ q
  · rw [if_pos h1, zpow_natCast]
    have hfl : 0 < ⌊q⌋₊ := Nat.floor_pos.mpr h1
    calc (10 : ℚ) ^ natLog10 ⌊q⌋₊
        = ((10 ^ natLog10 ⌊q⌋₊ : ℕ) : ℚ) := by push_cast; ring
      _ ≤ (⌊q⌋₊ : ℚ) := by exact_mod_cast natLog10_le hfl
      _ ≤ q := Nat.floor_le hq.le
  · rw [if_neg h1, if_pos hq, zpow_neg, zpow_natCast]
    rw [inv_le_comm₀ (by positivity) hq]
    calc q⁻¹ ≤ (⌈q⁻¹⌉₊ : ℚ) := Nat.le_ceil _
      _ ≤ ((10 ^ natClog10 ⌈q⁻¹⌉₊ : ℕ) : ℚ) := by exact_mod_cast natClog10_ge _
      _ = (10 : ℚ) ^ natClog10 ⌈q⁻¹⌉₊ := by push_cast; ring

/-- The grid's ceiling log is exact as an upper bound: `q ≤ 10 ^ ⌈log10 q⌉`. -/
theorem clog10_ge {q : ℚ} (hq : 0 < q) : q ≤ (10 : ℚ) ^ clog10 q := by
  rw [clog10, zpow_neg]
  have h := flog10_le (q := q⁻¹) (by positivity)
  rw [le_inv_comm₀ hq (by positivity)]
  exact h

/-- Every synthesized marker position lies between the curve's last x and
`xmax` — but `xmax` itself is reached only when it is a grid power of ten. -/
theorem markerGrid_bounds {xlast xmax : ℚ} (hpos : 0 < xlast) (hx : 0 < xmax) :
    ∀ p ∈ markerGrid xlast xmax, xlast ≤ p ∧ p ≤ xmax := by
  intro p hp
  rw [markerGrid] at hp
  rcases List.mem_map.mp hp with ⟨i, hi, rfl⟩
  have hi2 : (i : ℤ) ≤ flog10 xmax - clog10 xlast := by
    have := Int.lt_toNat.mp (List.mem_range.mp hi)
    omega
  constructor
  · calc xlast ≤ (10 : ℚ) ^ clog10 xlast := clog10_ge hpos
      _ ≤ (10 : ℚ) ^ (clog10 xlast + (i : ℤ)) :=
          zpow_le_zpow_right₀ (by norm_num) (by omega)
  · calc (10 : ℚ) ^ (clog10 xlast + (i : ℤ)) ≤ (10 : ℚ) ^ flog10 xmax :=
        zpow_le_zpow_right₀ (by norm_num) (by omega)
      _ ≤ xmax := flog10_le hx

/-- C7 counterexample: a marker-style curve ending at x = 2, extended to
`xmax = 50`, receives the single synthesized position 10 with the final y:
`xmax = 50` itself is not appended (it is not an integer power of ten), so
the extension is not "inclusive of xmax". -/
theorem extendMarkers_xmax_not_included :
    extendMarkers [2] [1/2] 50 = ([2, 10], [1/2, 1/2]) ∧
    (50 : ℚ) ∉ ([2, 10] : List ℚ) := by
  have hclog : clog10 2 = 1 := by
    rw [clog10, flog10, if_neg (by norm_num), if_pos (by norm_num), inv_inv]
    have hc : ⌈(2 : ℚ)⌉₊ = 2 := by norm_num
    rw [hc]
    decide
  have hflog : flog10 50 = 1 := by
    rw [flog10, if_pos (by norm_num)]
    have hf : ⌊(50 : ℚ)⌋₊ = 50 := by norm_num
    rw [hf]
    decide
  have hgrid : markerGrid 2 50 = [10] := by
    rw [markerGrid, hclog, hflog]
    norm_num [List.range, List.range.loop]
  constructor
  · rw [extendMarkers, if_pos ⟨by simp, by norm_num [List.max?]⟩]
    have h2 : ([2] : List ℚ).getLast?.getD 0 = 2 := by norm_num [List.getLast?]
    rw [h2, hgrid]
    norm_num [List.getLast?]
  · norm_num

/-- C7 amended: for every marker-style step curve with at least one point,
all positive x, and maximum x below `xmax`, the extender appends exactly the
positions `10 ^ k` for the integers `k` from `⌈log10(last x)⌉` to
`⌊log10 xmax⌋` (the module's `nbperdecade` is 1), each carrying the curve's
final y value; every appended position lies between the curve's last x and
`xmax`, with `xmax` itself included only when it is such a power of ten. -/
theorem extendMarkers_grid (xdata ydata : List ℚ) (xmax : ℚ)
    (hne : xdata ≠ []) (hlt : xdata.max?.getD 0 < xmax)
    (hpos : ∀ a ∈ xdata, 0 < a) :
    extendMarkers xdata ydata xmax =
      (xdata ++ markerGrid (xdata.getLast?.getD 0) xmax,
       ydata ++ List.replicate (markerGrid (xdata.getLast?.getD 0) xmax).length
         (ydata.getLast?.getD 0)) ∧
    markerGrid (xdata.getLast?.getD 0) xmax =
      (List.range (flog10 xmax + 1 - clog10 (xdata.getLast?.getD 0)).toNat).map
        (fun i : ℕ => (10 : ℚ) ^ (clog10 (xdata.getLast?.getD 0) + (i : ℤ))) ∧
    ∀ p ∈ markerGrid (xdata.getLast?.getD 0) xmax,
      xdata.getLast?.getD 0 ≤ p ∧ p ≤ xmax := by
  have hlast : xdata.getLast?.getD 0 ∈ xdata := by
    rw [List.getLast?_eq_getLast _ hne, Option.getD_some]
    exact List.getLast_mem hne
  have hlpos : 0 < xdata.getLast?.getD 0 := hpos _ hlast
  have hxmax : 0 < xmax := by
    rcases max?_getD_spec hne with ⟨hmem, _⟩
    exact lt_trans (hpos _ hmem) hlt
  refine ⟨?_, rfl, markerGrid_bounds hlpos hxmax⟩
  rw [extendMarkers, if_pos ⟨hne, hlt⟩]

/-- Witness for C7's amended theorem at the curve `([2], [1/2])`, `xmax = 50`. -/
theorem extendMarkers_grid_witness :
    extendMarkers [2] [1/2] 50 =
      (([2] : List ℚ) ++ markerGrid (([2] : List ℚ).getLast?.getD 0) 50,
       ([1/2] : List ℚ) ++
         List.replicate (markerGrid (([2] : List ℚ).getLast?.getD 0) 50).length
           (([1/2] : List ℚ).getLast?.getD 0)) :=
  (extendMarkers_grid [2] [1/2] 50 (by simp) (by norm_num [List.max?])
    (by norm_num)).1

end Pprldistr
